import Mathlib

/-!
Shallow embedding of `src/blockchain.py` (classes `Block` and `Blockchain`).

Modelling conventions:
* SHA-256 itself is abstracted as a parameter `H : String → String`
  (the hex digest function `hashlib.sha256(...).hexdigest()`); the canonical
  JSON serialization fed to it is modelled concretely from the source.
* `timestamp` values (Python floats from `time.time()`) are modelled as `Nat`;
  no arithmetic is ever performed on them by the program.
* `data` payloads are modelled as `String` (the payloads the program uses).
* The unbounded mining loop `proof_of_work` is modelled with explicit fuel,
  returning `none` when the fuel runs out before a satisfying nonce is found.
* Wall-clock readings (`time.time()` at loop entry and exit) are passed in as
  explicit parameters `tStart`, `tEnd`; the reported duration is `tEnd - tStart`,
  mirroring `end - start` in the source.
* Python object mutation is modelled by state passing; `tamper_with_block`
  returns the post-call chain together with an optional raised error message.
-/

set_option autoImplicit false
set_option maxRecDepth 40000

/-- The `Block` class: fields set in `Block.__init__`. -/
structure Block where
  index : Nat
  timestamp : Nat
  data : String
  previous_hash : String
  nonce : Nat
  hash : String
  deriving DecidableEq, Repr

/-- Minimal JSON string escaping used by `json.dumps` on the payload strings. -/
def jsonEscape (s : String) : String :=
  String.mk (s.data.foldl (fun acc c =>
    if c = '\\' then acc ++ ['\\', '\\']
    else if c = '"' then acc ++ ['\\', '"']
    else acc ++ [c]) [])

/-- `pre` is a prefix of the character sequence of `s`
(Python's `str.startswith`, structurally recursive over the characters). -/
def charsPrefix : List Char → List Char → Bool
  | [], _ => true
  | _ :: _, [] => false
  | c :: cs, d :: ds => c == d && charsPrefix cs ds

/-- `s.startswith(pre)` on strings. -/
def strStartsWith (s pre : String) : Bool :=
  charsPrefix pre.data s.data

/-- The canonical serialization built in `Block.compute_hash`:
`json.dumps({'index', 'timestamp', 'data', 'previous_hash', 'nonce'},
sort_keys=True, separators=(',',':'))` — keys in sorted order
`data, index, nonce, previous_hash, timestamp`, no whitespace. -/
def blockString (b : Block) : String :=
  "\x7b\"data\":\"" ++ jsonEscape b.data ++
  "\",\"index\":" ++ Nat.repr b.index ++
  ",\"nonce\":" ++ Nat.repr b.nonce ++
  ",\"previous_hash\":\"" ++ jsonEscape b.previous_hash ++
  "\",\"timestamp\":" ++ Nat.repr b.timestamp ++ "\x7d"

/-- `Block.compute_hash`: the hex digest of the canonical serialization of the
five content fields (the stored `hash` field is not an input). -/
def computeHash (H : String → String) (b : Block) : String :=
  H (blockString b)

/-- `Block.__init__`: stores the five fields and sets
`self.hash = self.compute_hash()`. -/
def Block.make (H : String → String) (index timestamp : Nat)
    (data previous_hash : String) (nonce : Nat) : Block :=
  let b : Block :=
    { index := index, timestamp := timestamp, data := data,
      previous_hash := previous_hash, nonce := nonce, hash := "" }
  { b with hash := computeHash H b }

/-- The `Blockchain` class state: `self.chain` and `self.difficulty`. -/
structure Blockchain where
  chain : List Block
  difficulty : Nat
  deriving DecidableEq, Repr

/-- `'0' * difficulty`: the difficulty target string. -/
def zeros (difficulty : Nat) : String :=
  String.mk (List.replicate difficulty '0')

/-- The loop body of `proof_of_work`, with explicit fuel:
set `block.hash = block.compute_hash()`; if it starts with the target, stop;
otherwise increment `block.nonce` and repeat. Returns the final block state. -/
def powLoop (H : String → String) (target : String) : Nat → Block → Option Block
  | 0, _ => none
  | fuel + 1, b =>
    if strStartsWith (computeHash H b) target then some { b with hash := computeHash H b }
    else powLoop H target fuel { b with hash := computeHash H b, nonce := b.nonce + 1 }

/-- `Blockchain.proof_of_work`: runs the mining loop and returns
`(block state, block.hash, block.nonce, end - start)`, with the two clock
readings passed in as `tStart`, `tEnd`. -/
def proofOfWork (H : String → String) (difficulty fuel : Nat) (b : Block)
    (tStart tEnd : Nat) : Option (Block × String × Nat × Nat) :=
  (powLoop H (zeros difficulty) fuel b).map (fun b2 => (b2, b2.hash, b2.nonce, tEnd - tStart))

/-- `Blockchain.__init__` together with `create_genesis_block`: builds the
genesis block (`index=0`, `data="Genesis Block"`, `previous_hash="0"`),
mines it, and starts the chain with it. `ts` is the `time.time()` value used
for the genesis timestamp. -/
def Blockchain.create (H : String → String) (difficulty fuel ts : Nat) :
    Option Blockchain :=
  (powLoop H (zeros difficulty) fuel (Block.make H 0 ts "Genesis Block" "0" 0)).map
    (fun g => { chain := [g], difficulty := difficulty })

/-- The summary dict returned by `Blockchain.add_block`. -/
structure AddSummary where
  index : Nat
  hash : String
  nonce : Nat
  time_taken_sec : Nat
  deriving DecidableEq, Repr

/-- `Blockchain.add_block`: builds a candidate block linked to the tail
(`index = last.index + 1`, `previous_hash = last.hash`), mines it, appends it,
and returns the summary. `ts` is the candidate's `time.time()` timestamp;
`tStart`, `tEnd` are the mining clock readings. -/
def Blockchain.addBlock (H : String → String) (fuel ts tStart tEnd : Nat)
    (bc : Blockchain) (data : String) : Option (Blockchain × AddSummary) :=
  match bc.chain.getLast? with
  | none => none
  | some last =>
    (powLoop H (zeros bc.difficulty) fuel
        (Block.make H (last.index + 1) ts data last.hash 0)).map (fun mined =>
      ({ bc with chain := bc.chain ++ [mined] },
       { index := mined.index, hash := mined.hash, nonce := mined.nonce,
         time_taken_sec := tEnd - tStart }))

/-- Message `f"Block {index} previous_hash mismatch."`. -/
def prevMismatchMsg (i : Nat) : String :=
  "Block " ++ Nat.repr i ++ " previous_hash mismatch."

/-- Message `f"Block {index} hash mismatch."`. -/
def hashMismatchMsg (i : Nat) : String :=
  "Block " ++ Nat.repr i ++ " hash mismatch."

/-- Message `f"Block {index} does not meet difficulty."`. -/
def difficultyMsg (i : Nat) : String :=
  "Block " ++ Nat.repr i ++ " does not meet difficulty."

/-- Message `"Chain is valid."`. -/
def validMsg : String := "Chain is valid."

/-- The loop of `Blockchain.is_chain_valid`: walk the blocks after the head,
carrying the preceding block, applying the three checks in source order and
returning on the first failure. -/
def validFrom (H : String → String) (target : String) :
    Block → List Block → Bool × String
  | _, [] => (true, validMsg)
  | prev, cur :: rest =>
    if cur.previous_hash ≠ prev.hash then (false, prevMismatchMsg cur.index)
    else if computeHash H cur ≠ cur.hash then (false, hashMismatchMsg cur.index)
    else if ¬ strStartsWith cur.hash target then (false, difficultyMsg cur.index)
    else validFrom H target cur rest

/-- `Blockchain.is_chain_valid`: iterates `i` over `range(1, len(chain))`
applying the three checks; `(True, "Chain is valid.")` if the loop finishes. -/
def Blockchain.isChainValid (H : String → String) (bc : Blockchain) :
    Bool × String :=
  match bc.chain with
  | [] => (true, validMsg)
  | g :: rest => validFrom H (zeros bc.difficulty) g rest

/-- `self.chain[index].data = new_data`: replace the `data` field of the
element at the given position, leaving everything else in place. -/
def setData : List Block → Nat → String → List Block
  | [], _, _ => []
  | b :: rest, 0, d => { b with data := d } :: rest
  | b :: rest, n + 1, d => b :: setData rest n d

/-- `Blockchain.tamper_with_block`: raises
`IndexError("Invalid block index to tamper with.")` when `index <= 0` or
`index >= len(chain)`, otherwise overwrites the block's `data` in place.
The result is the post-call chain state paired with the raised error, if any. -/
def Blockchain.tamperWithBlock (bc : Blockchain) (index : Int)
    (newData : String) : Blockchain × Option String :=
  if index ≤ 0 ∨ (bc.chain.length : Int) ≤ index then
    (bc, some "Invalid block index to tamper with.")
  else
    ({ bc with chain := setData bc.chain index.toNat newData }, none)

/-- `Blockchain.average_nonce`: `0.0` when the chain has at most one block,
otherwise the exact mean `sum(b.nonce for b in chain[1:]) / (len(chain) - 1)`,
as a rational. -/
def Blockchain.averageNonce (bc : Blockchain) : Rat :=
  if bc.chain.length ≤ 1 then 0
  else (((bc.chain.drop 1).map Block.nonce).sum : Rat) /
    (((bc.chain.length - 1 : Nat) : Rat))

/-! ## Specification-side definitions

`validateSpec` restates the spec's description of `validate()`: find the
earliest block (walking adjacent pairs in order) at which one of the three
checks fails, and report that block with the message of the first failing
check in the sequence (a) previous-digest link, (b) digest recomputation,
(c) difficulty prefix; success when no block fails. It is compared with
`Blockchain.isChainValid`, the definition translated from the source. -/

/-- All three per-block checks of `validate()` pass for a block `cur` whose
predecessor is `prev`. -/
def blockOk (H : String → String) (target : String) (prev cur : Block) : Bool :=
  decide (cur.previous_hash = prev.hash) &&
    decide (computeHash H cur = cur.hash) &&
    strStartsWith cur.hash target

/-- The failure message of the first failing check, in source order. -/
def failMsgFor (H : String → String) (prev cur : Block) : String :=
  if cur.previous_hash ≠ prev.hash then prevMismatchMsg cur.index
  else if computeHash H cur ≠ cur.hash then hashMismatchMsg cur.index
  else difficultyMsg cur.index

/-- Adjacent pairs `(chain[i-1], chain[i])` for `i = 1 .. length - 1`. -/
def adjPairs (l : List Block) : List (Block × Block) := l.zip l.tail

/-- Modelled from the spec: the earliest adjacent pair failing a check. -/
def findBad (H : String → String) (target : String) (chain : List Block) :
    Option (Block × Block) :=
  (adjPairs chain).find? (fun p => ! blockOk H target p.1 p.2)

/-- Modelled from the spec: `validate()` as first-failure search. -/
def validateSpec (H : String → String) (bc : Blockchain) : Bool × String :=
  match findBad H (zeros bc.difficulty) bc.chain with
  | none => (true, validMsg)
  | some p => (false, failMsgFor H p.1 p.2)

/-- Chains constructible through the public API without any tamper call: the
constructor followed by any number of successful `add_block` calls. -/
inductive Reachable (H : String → String) : Blockchain → Prop
  | created (difficulty fuel ts : Nat) (bc : Blockchain)
      (h : Blockchain.create H difficulty fuel ts = some bc) : Reachable H bc
  | added (fuel ts tStart tEnd : Nat) (bc bc' : Blockchain) (s : AddSummary)
      (data : String) (hr : Reachable H bc)
      (h : bc.addBlock H fuel ts tStart tEnd data = some (bc', s)) : Reachable H bc'

/-! ## Concrete values used by witnesses and counterexamples

`hashId` instantiates the abstract digest function with the identity on
serializations, and difficulty 0 makes mining succeed on the first nonce,
so all chain operations evaluate in closed form. -/

def hashId : String → String := fun s => s

def blkDef : Block :=
  { index := 0, timestamp := 0, data := "", previous_hash := "", nonce := 0, hash := "" }

def sumDef : AddSummary := { index := 0, hash := "", nonce := 0, time_taken_sec := 0 }

def bcDef : Blockchain := { chain := [], difficulty := 0 }

/-- A chain built by the constructor with difficulty 0. -/
def bc0 : Blockchain := (Blockchain.create hashId 0 1 7).getD bcDef

def step1 : Blockchain × AddSummary :=
  (bc0.addBlock hashId 1 8 3 5 "A").getD (bc0, sumDef)

/-- `bc0` extended by one `add_block` call with payload `"A"`. -/
def bc1 : Blockchain := step1.1

def g0 : Block := bc1.chain.headD blkDef

def b1 : Block := (bc1.chain[1]?).getD blkDef

/-- A corrupted genesis: same stored digest as `g0`, different content. -/
def gBad : Block := { g0 with data := "evil", nonce := 99 }

def step2 : Blockchain × AddSummary :=
  (bc1.addBlock hashId 1 9 4 6 "B").getD (bc1, sumDef)

def bc2 : Blockchain := step2.1

def sum2 : AddSummary := step2.2

def last1 : Block := (bc1.chain.getLast?).getD blkDef

/-- A chain with nontrivial nonces for the average-nonce witness. -/
def bcAvg : Blockchain :=
  { chain := [blkDef, { blkDef with nonce := 5 }, { blkDef with nonce := 7 }],
    difficulty := 0 }

/-- A block to mine in the proof-of-work witness. -/
def mineB : Block :=
  { index := 3, timestamp := 1, data := "m", previous_hash := "p", nonce := 5, hash := "h" }

def powRes : Block × String × Nat × Nat :=
  (proofOfWork hashId 0 1 mineB 2 9).getD (blkDef, "", 0, 0)

/-! ## Helper lemmas -/

/-- `compute_hash` reads only the five content fields, never the stored
`hash`. -/
theorem computeHash_congr (H : String → String) (b b' : Block)
    (h1 : b.index = b'.index) (h2 : b.timestamp = b'.timestamp)
    (h3 : b.data = b'.data) (h4 : b.previous_hash = b'.previous_hash)
    (h5 : b.nonce = b'.nonce) : computeHash H b = computeHash H b' := by
  unfold computeHash blockString
  rw [h1, h2, h3, h4, h5]

theorem setData_length (l : List Block) (n : Nat) (d : String) :
    (setData l n d).length = l.length := by
  induction l generalizing n with
  | nil => rfl
  | cons b rest ih => cases n <;> simp [setData, ih]

theorem setData_getElem? (l : List Block) (n : Nat) (d : String) (j : Nat) :
    (setData l n d)[j]? =
      if j = n then (l[j]?).map (fun b => { b with data := d }) else l[j]? := by
  induction l generalizing n j with
  | nil => simp [setData]
  | cons b rest ih =>
    cases n with
    | zero => cases j <;> simp [setData]
    | succ m =>
      cases j with
      | zero => simp [setData]
      | succ k => simpa [setData] using ih m k

/-- Full specification of the mining loop: when it returns a block, that block
differs from the input only in `nonce` and `hash`, its stored hash is the
recomputed digest at the final nonce, the final nonce is at least the starting
one, the digest at the final nonce meets the target, and no nonce strictly
between the starting one and the final one does. -/
theorem powLoop_spec (H : String → String) (target : String) (fuel : Nat)
    (b b2 : Block) (h : powLoop H target fuel b = some b2) :
    b2.index = b.index ∧ b2.timestamp = b.timestamp ∧ b2.data = b.data ∧
    b2.previous_hash = b.previous_hash ∧
    b2.hash = computeHash H b2 ∧
    strStartsWith b2.hash target = true ∧
    b.nonce ≤ b2.nonce ∧
    (∀ m, b.nonce ≤ m → m < b2.nonce →
      strStartsWith (computeHash H { b with nonce := m }) target = false) := by
  induction fuel generalizing b with
  | zero => simp [powLoop] at h
  | succ fuel ih =>
    rw [powLoop] at h
    by_cases hs : strStartsWith (computeHash H b) target = true
    · rw [if_pos hs] at h
      have hb2 : b2 = { b with hash := computeHash H b } := by
        exact (Option.some_injective _ h).symm
      subst hb2
      refine ⟨rfl, rfl, rfl, rfl, rfl, hs, Nat.le_refl _, ?_⟩
      intro m hm hm'
      exact absurd (Nat.lt_of_le_of_lt hm hm') (Nat.lt_irrefl _)
    · rw [if_neg hs] at h
      obtain ⟨e1, e2, e3, e4, e5, e6, e7, e8⟩ := ih _ h
      refine ⟨e1, e2, e3, e4, e5, e6, Nat.le_trans (Nat.le_succ _) e7, ?_⟩
      intro m hm hm'
      rcases Nat.eq_or_lt_of_le hm with hme | hmgt
      · have hb : ({ b with nonce := m } : Block) = b := by
          rw [← hme]
        rw [hb]
        exact Bool.not_eq_true _ ▸ (Bool.of_not_eq_true hs)
      · have : strStartsWith
            (computeHash H { b with hash := computeHash H b, nonce := m }) target = false :=
          e8 m hmgt hm'
        calc strStartsWith (computeHash H { b with nonce := m }) target
            = strStartsWith (computeHash H { b with hash := computeHash H b, nonce := m })
                target :=
              congrArg (fun s => strStartsWith s target)
                (computeHash_congr H _ _ rfl rfl rfl rfl rfl)
          _ = false := this

/-- The validation walk equals the first-failure search over adjacent pairs. -/
theorem validFrom_eq_find (H : String → String) (target : String)
    (rest : List Block) (prev : Block) :
    validFrom H target prev rest =
      (match ((prev :: rest).zip rest).find? (fun p => ! blockOk H target p.1 p.2) with
      | none => (true, validMsg)
      | some p => (false, failMsgFor H p.1 p.2)) := by
  induction rest generalizing prev with
  | nil => rfl
  | cons cur rest ih =>
    rw [List.zip_cons_cons]
    by_cases h1 : cur.previous_hash = prev.hash
    · by_cases h2 : computeHash H cur = cur.hash
      · by_cases h3 : strStartsWith cur.hash target = true
        · rw [List.find?_cons_of_neg _ (by simp [blockOk, h1, h2, h3]),
            validFrom, if_neg (not_not_intro h1), if_neg (not_not_intro h2),
            if_neg (not_not_intro h3)]
          exact ih cur
        · rw [List.find?_cons_of_pos _ (by simp [blockOk, h1, h2, h3]),
            validFrom, if_neg (not_not_intro h1), if_neg (not_not_intro h2), if_pos h3]
          simp [failMsgFor, h1, h2]
      · rw [List.find?_cons_of_pos _ (by simp [blockOk, h2]),
          validFrom, if_neg (not_not_intro h1), if_pos h2]
        simp [failMsgFor, h1, h2]
    · rw [List.find?_cons_of_pos _ (by simp [blockOk, h1]), validFrom, if_pos h1]
      simp [failMsgFor, h1]

/-- The source `is_chain_valid` coincides with the spec-side search. -/
theorem isChainValid_eq_validateSpec (H : String → String) (bc : Blockchain) :
    bc.isChainValid H = validateSpec H bc := by
  obtain ⟨chain, d⟩ := bc
  cases chain with
  | nil => rfl
  | cons g rest =>
    show validFrom H (zeros d) g rest = _
    rw [validFrom_eq_find]
    rfl

/-- Validation succeeds exactly when every adjacent pair passes all checks. -/
theorem isChainValid_fst_iff (H : String → String) (bc : Blockchain) :
    (bc.isChainValid H).fst = true ↔
      ∀ p ∈ adjPairs bc.chain, blockOk H (zeros bc.difficulty) p.1 p.2 = true := by
  rw [isChainValid_eq_validateSpec]
  unfold validateSpec findBad
  cases hfb : (adjPairs bc.chain).find? (fun p => ! blockOk H (zeros bc.difficulty) p.1 p.2) with
  | none =>
    constructor
    · intro _ p hp
      have := List.find?_eq_none.mp hfb p hp
      simpa using this
    · intro _
      rfl
  | some p =>
    simp only [Bool.false_eq_true, false_iff]
    intro hall
    have hmem := List.mem_of_find?_eq_some hfb
    have hval := List.find?_some hfb
    have := hall p hmem
    simp [this] at hval

/-- A validation walk whose boolean is `true` returned the success pair. -/
theorem validFrom_eq_of_fst (H : String → String) (target : String)
    (rest : List Block) (prev : Block)
    (h : (validFrom H target prev rest).fst = true) :
    validFrom H target prev rest = (true, validMsg) := by
  induction rest generalizing prev with
  | nil => rfl
  | cons cur rest ih =>
    rw [validFrom] at h ⊢
    by_cases h1 : cur.previous_hash ≠ prev.hash
    · rw [if_pos h1] at h; simp at h
    · rw [if_neg h1] at h ⊢
      by_cases h2 : computeHash H cur ≠ cur.hash
      · rw [if_pos h2] at h; simp at h
      · rw [if_neg h2] at h ⊢
        by_cases h3 : ¬ strStartsWith cur.hash target
        · rw [if_pos h3] at h; simp at h
        · rw [if_neg h3] at h ⊢
          exact ih cur h

/-- A successful validation returns exactly `(True, "Chain is valid.")`. -/
theorem isChainValid_eq_of_fst (H : String → String) (bc : Blockchain)
    (h : (bc.isChainValid H).fst = true) : bc.isChainValid H = (true, validMsg) := by
  obtain ⟨chain, d⟩ := bc
  cases chain with
  | nil => rfl
  | cons g rest => exact validFrom_eq_of_fst H (zeros d) rest g h

theorem adjPairs_cons_cons (a b : Block) (l : List Block) :
    adjPairs (a :: b :: l) = (a, b) :: adjPairs (b :: l) := rfl

/-- Appending to a nonempty list adds exactly the pair `(last, nb)`. -/
theorem adjPairs_append (l : List Block) (last nb : Block)
    (h : l.getLast? = some last) :
    adjPairs (l ++ [nb]) = adjPairs l ++ [(last, nb)] := by
  induction l with
  | nil => simp at h
  | cons a l ih =>
    cases l with
    | nil =>
      simp at h
      subst h
      rfl
    | cons b t =>
      have h' : (b :: t).getLast? = some last := by
        rwa [List.getLast?_cons_cons] at h
      calc adjPairs (a :: (b :: t ++ [nb]))
          = (a, b) :: adjPairs (b :: t ++ [nb]) := rfl
        _ = (a, b) :: (adjPairs (b :: t) ++ [(last, nb)]) := by rw [ih h']
        _ = adjPairs (a :: b :: t) ++ [(last, nb)] := rfl

/-- The validation walk depends on the carried predecessor only through its
stored `hash`. -/
theorem validFrom_congr_prev (H : String → String) (target : String)
    (rest : List Block) (prev prev' : Block) (h : prev.hash = prev'.hash) :
    validFrom H target prev rest = validFrom H target prev' rest := by
  cases rest with
  | nil => rfl
  | cons cur rest => rw [validFrom, validFrom, h]

/-- Tampering the data of the block at position `i` of a suffix that
validated makes the walk fail exactly at that block's digest-recomputation
check, provided the digest recomputed with the new data differs from the
stored one. -/
theorem validFrom_setData (H : String → String) (target : String) (d : String)
    (rest : List Block) (prev : Block) (i : Nat) (b : Block)
    (hget : rest[i]? = some b)
    (hvalid : (validFrom H target prev rest).fst = true)
    (hm : computeHash H { b with data := d } ≠ b.hash) :
    validFrom H target prev (setData rest i d) =
      (false, hashMismatchMsg b.index) := by
  induction rest generalizing prev i with
  | nil => simp at hget
  | cons cur rest ih =>
    have h1 : cur.previous_hash = prev.hash := by
      by_contra hne
      rw [validFrom, if_pos hne] at hvalid
      simp at hvalid
    have h2 : computeHash H cur = cur.hash := by
      by_contra hne
      rw [validFrom, if_neg (not_not_intro h1), if_pos hne] at hvalid
      simp at hvalid
    have h3 : strStartsWith cur.hash target = true := by
      by_contra hne
      rw [validFrom, if_neg (not_not_intro h1), if_neg (not_not_intro h2),
        if_pos hne] at hvalid
      simp at hvalid
    have hrest : (validFrom H target cur rest).fst = true := by
      rw [validFrom, if_neg (not_not_intro h1), if_neg (not_not_intro h2),
        if_neg (not_not_intro h3)] at hvalid
      exact hvalid
    cases i with
    | zero =>
      have hb : cur = b := by simpa using hget
      subst hb
      show validFrom H target prev ({ cur with data := d } :: rest) = _
      rw [validFrom]
      rw [if_neg (not_not_intro (show ({ cur with data := d } : Block).previous_hash
        = prev.hash from h1))]
      rw [if_pos (show computeHash H ({ cur with data := d } : Block)
        ≠ ({ cur with data := d } : Block).hash from hm)]
    | succ j =>
      have hget' : rest[j]? = some b := by simpa using hget
      show validFrom H target prev (cur :: setData rest j d) = _
      rw [validFrom, if_neg (not_not_intro h1), if_neg (not_not_intro h2),
        if_neg (not_not_intro h3)]
      exact ih cur j hget' hrest

theorem Block.make_index (H : String → String) (i t : Nat) (d p : String) (n : Nat) :
    (Block.make H i t d p n).index = i := rfl

theorem Block.make_timestamp (H : String → String) (i t : Nat) (d p : String) (n : Nat) :
    (Block.make H i t d p n).timestamp = t := rfl

theorem Block.make_data (H : String → String) (i t : Nat) (d p : String) (n : Nat) :
    (Block.make H i t d p n).data = d := rfl

theorem Block.make_previous_hash (H : String → String) (i t : Nat) (d p : String) (n : Nat) :
    (Block.make H i t d p n).previous_hash = p := rfl

theorem Block.make_nonce (H : String → String) (i t : Nat) (d p : String) (n : Nat) :
    (Block.make H i t d p n).nonce = n := rfl

/-- Inversion of a successful constructor call. -/
theorem create_some (H : String → String) (difficulty fuel ts : Nat)
    (bc : Blockchain) (h : Blockchain.create H difficulty fuel ts = some bc) :
    ∃ g, powLoop H (zeros difficulty) fuel (Block.make H 0 ts "Genesis Block" "0" 0)
        = some g ∧
      bc = { chain := [g], difficulty := difficulty } := by
  unfold Blockchain.create at h
  cases hp : powLoop H (zeros difficulty) fuel (Block.make H 0 ts "Genesis Block" "0" 0) with
  | none => rw [hp] at h; simp at h
  | some g =>
    rw [hp] at h
    simp only [Option.map_some'] at h
    exact ⟨g, rfl, (Option.some.inj h).symm⟩

/-- Inversion of a successful `add_block` call. -/
theorem addBlock_some (H : String → String) (fuel ts tStart tEnd : Nat)
    (bc : Blockchain) (data : String) (bc' : Blockchain) (s : AddSummary)
    (h : bc.addBlock H fuel ts tStart tEnd data = some (bc', s)) :
    ∃ last mined, bc.chain.getLast? = some last ∧
      powLoop H (zeros bc.difficulty) fuel
        (Block.make H (last.index + 1) ts data last.hash 0) = some mined ∧
      bc' = { bc with chain := bc.chain ++ [mined] } ∧
      s = { index := mined.index, hash := mined.hash, nonce := mined.nonce,
            time_taken_sec := tEnd - tStart } := by
  unfold Blockchain.addBlock at h
  split at h
  · simp at h
  · rename_i last hl
    cases hp : powLoop H (zeros bc.difficulty) fuel
        (Block.make H (last.index + 1) ts data last.hash 0) with
    | none => rw [hp] at h; simp at h
    | some mined =>
      rw [hp] at h
      simp only [Option.map_some'] at h
      have hpair := Option.some.inj h
      exact ⟨last, mined, hl, hp,
        ((Prod.ext_iff.mp hpair).1).symm, ((Prod.ext_iff.mp hpair).2).symm⟩


/-! ## Claim theorems -/

/-- C2: `validate()` walks blocks from index 1 onward in order, applying the
three checks in sequence, short-circuits at the first failure (reporting the
earliest failing block with the message of its first failing check), and
returns success exactly when every block passes all checks. Stated as:
the source walk equals the spec-side earliest-failure search, and success
holds iff every adjacent pair passes. -/
theorem isChainValid_refines_spec (H : String → String) (bc : Blockchain) :
    bc.isChainValid H = validateSpec H bc ∧
    ((bc.isChainValid H).fst = true ↔
      ∀ p ∈ adjPairs bc.chain, blockOk H (zeros bc.difficulty) p.1 p.2 = true) :=
  ⟨isChainValid_eq_validateSpec H bc, isChainValid_fst_iff H bc⟩

theorem isChainValid_refines_spec_witness :
    bc1.isChainValid hashId = validateSpec hashId bc1 ∧
    (bc1.isChainValid hashId).fst = true :=
  ⟨(isChainValid_refines_spec hashId bc1).1, by decide⟩

/-- C3: every chain obtained from the constructor followed by any number of
successful `add_block` calls — with no tampering — validates successfully. -/
theorem reachable_isChainValid (H : String → String) (bc : Blockchain)
    (h : Reachable H bc) : bc.isChainValid H = (true, validMsg) := by
  induction h with
  | created difficulty fuel ts bc h =>
    obtain ⟨g, hp, hbc⟩ := create_some H difficulty fuel ts bc h
    subst hbc
    rfl
  | added fuel ts tStart tEnd bc bc' s data hr h ih =>
    obtain ⟨last, mined, hl, hp, hbc', hs⟩ :=
      addBlock_some H fuel ts tStart tEnd bc data bc' s h
    subst hbc'
    apply isChainValid_eq_of_fst
    rw [isChainValid_fst_iff]
    intro p hp'
    have hpairs : adjPairs (bc.chain ++ [mined]) = adjPairs bc.chain ++ [(last, mined)] :=
      adjPairs_append bc.chain last mined hl
    rw [show ({ bc with chain := bc.chain ++ [mined] } : Blockchain).chain
      = bc.chain ++ [mined] from rfl, hpairs] at hp'
    rcases List.mem_append.mp hp' with hin | hnew
    · exact (isChainValid_fst_iff H bc).mp (by rw [ih]) p hin
    · have hpe : p = (last, mined) := by simpa using hnew
      subst hpe
      obtain ⟨e1, e2, e3, e4, e5, e6, e7, e8⟩ :=
        powLoop_spec H (zeros bc.difficulty) fuel _ mined hp
      rw [Block.make_previous_hash] at e4
      simp [blockOk, e4, ← e5, e6]

theorem reachable_isChainValid_witness :
    bc1.isChainValid hashId = (true, validMsg) :=
  reachable_isChainValid hashId bc1
    (Reachable.added 1 8 3 5 bc0 bc1 step1.2 "A"
      (Reachable.created 0 1 7 bc0 (by decide))
      (by decide))

/-- C4: `tamper` raises the out-of-range error exactly when `index ≤ 0` or
`index ≥ len(chain)`, and on such a failure the chain state is left
completely unmodified. -/
theorem tamper_out_of_range (bc : Blockchain) (i : Int) (d : String) :
    (((bc.tamperWithBlock i d).2).isSome = true ↔
      (i ≤ 0 ∨ (bc.chain.length : Int) ≤ i)) ∧
    (((bc.tamperWithBlock i d).2).isSome = true → (bc.tamperWithBlock i d).1 = bc) := by
  unfold Blockchain.tamperWithBlock
  by_cases h : i ≤ 0 ∨ (bc.chain.length : Int) ≤ i
  · rw [if_pos h]
    simp [h]
  · rw [if_neg h]
    simp [h]

theorem tamper_out_of_range_witness :
    (bc1.tamperWithBlock 0 "X").1 = bc1 ∧ (bc1.tamperWithBlock 2 "X").1 = bc1 ∧
    (bc1.tamperWithBlock (-3) "X").1 = bc1 :=
  ⟨(tamper_out_of_range bc1 0 "X").2 (by decide),
   (tamper_out_of_range bc1 2 "X").2 (by decide),
   (tamper_out_of_range bc1 (-3) "X").2 (by decide)⟩

/-- C5: an in-range tamper replaces only the `data` field of the block at
the given index: that block's other five fields (including the stored
digest, which is not recomputed), every other block, the chain length and
the difficulty are all unchanged, and no error is raised. -/
theorem tamper_frame (bc : Blockchain) (i : Nat) (d : String) (b : Block)
    (hi : 0 < i) (hget : bc.chain[i]? = some b) :
    (bc.tamperWithBlock (i : Int) d).2 = none ∧
    (bc.tamperWithBlock (i : Int) d).1.difficulty = bc.difficulty ∧
    (bc.tamperWithBlock (i : Int) d).1.chain.length = bc.chain.length ∧
    (bc.tamperWithBlock (i : Int) d).1.chain[i]? = some { b with data := d } ∧
    (∀ j : Nat, j ≠ i → (bc.tamperWithBlock (i : Int) d).1.chain[j]? = bc.chain[j]?) := by
  have hlen : i < bc.chain.length := by
    by_contra hc
    rw [List.getElem?_eq_none (Nat.le_of_not_lt hc)] at hget
    simp at hget
  have hcond : ¬ ((i : Int) ≤ 0 ∨ (bc.chain.length : Int) ≤ (i : Int)) := by
    push_neg
    exact ⟨by exact_mod_cast hi, by exact_mod_cast hlen⟩
  unfold Blockchain.tamperWithBlock
  rw [if_neg hcond]
  refine ⟨rfl, rfl, ?_, ?_, ?_⟩
  · show (setData bc.chain ((i : Int)).toNat d).length = _
    rw [Int.toNat_natCast, setData_length]
  · show (setData bc.chain ((i : Int)).toNat d)[i]? = _
    rw [Int.toNat_natCast, setData_getElem?, if_pos rfl, hget]
    rfl
  · intro j hj
    show (setData bc.chain ((i : Int)).toNat d)[j]? = _
    rw [Int.toNat_natCast, setData_getElem?, if_neg hj]

theorem tamper_frame_witness :
    (bc1.tamperWithBlock ((1 : Nat) : Int) "Y").2 = none ∧
    (bc1.tamperWithBlock ((1 : Nat) : Int) "Y").1.chain[1]? =
      some { b1 with data := "Y" } ∧
    (bc1.tamperWithBlock ((1 : Nat) : Int) "Y").1.chain[0]? = bc1.chain[0]? :=
  ⟨(tamper_frame bc1 1 "Y" b1 (by decide) (by decide)).1,
   (tamper_frame bc1 1 "Y" b1 (by decide) (by decide)).2.2.2.1,
   (tamper_frame bc1 1 "Y" b1 (by decide) (by decide)).2.2.2.2 0 (by decide)⟩

/-- Tampering position `j + 1` of a chain that validated makes validation
fail exactly at that block with the digest-mismatch message, provided the
recomputed digest differs. -/
theorem isChainValid_setData (H : String → String) (chain : List Block)
    (diff : Nat) (j : Nat) (d : String) (b : Block)
    (hget : chain[j + 1]? = some b)
    (hvalid : (Blockchain.isChainValid H { chain := chain, difficulty := diff }).fst = true)
    (hm : computeHash H { b with data := d } ≠ b.hash) :
    Blockchain.isChainValid H { chain := setData chain (j + 1) d, difficulty := diff } =
      (false, hashMismatchMsg b.index) := by
  cases chain with
  | nil => simp at hget
  | cons g rest =>
    have hget' : rest[j]? = some b := by simpa using hget
    have hvalid' : (validFrom H (zeros diff) g rest).fst = true := hvalid
    show validFrom H (zeros diff) g (setData rest j d) = _
    exact validFrom_setData H (zeros diff) d rest g j b hget' hvalid' hm

/-- C1 (amended): if a chain validates, tampering at an in-range non-genesis
index `i` raises no error, replaces that block's `data` while leaving its
stored digest (and all other fields) unchanged, and — provided the digest
recomputed from the tampered fields differs from the stored one —
a subsequent `validate()` fails exactly at that block with the
digest-mismatch message. -/
theorem tamper_then_validate_fails (H : String → String) (bc : Blockchain)
    (i : Nat) (d : String) (b : Block)
    (hvalid : (bc.isChainValid H).fst = true)
    (hi : 0 < i) (hget : bc.chain[i]? = some b)
    (hm : computeHash H { b with data := d } ≠ b.hash) :
    (bc.tamperWithBlock (i : Int) d).2 = none ∧
    (bc.tamperWithBlock (i : Int) d).1.chain[i]? = some { b with data := d } ∧
    (bc.tamperWithBlock (i : Int) d).1.isChainValid H =
      (false, hashMismatchMsg b.index) := by
  have hlen : i < bc.chain.length := by
    by_contra hc
    rw [List.getElem?_eq_none (Nat.le_of_not_lt hc)] at hget
    simp at hget
  have hcond : ¬ ((i : Int) ≤ 0 ∨ (bc.chain.length : Int) ≤ (i : Int)) := by
    push_neg
    exact ⟨by exact_mod_cast hi, by exact_mod_cast hlen⟩
  obtain ⟨j, rfl⟩ : ∃ j, i = j + 1 := ⟨i - 1, by omega⟩
  unfold Blockchain.tamperWithBlock
  rw [if_neg hcond]
  refine ⟨rfl, ?_, ?_⟩
  · show (setData bc.chain (((j + 1 : Nat) : Int)).toNat d)[j + 1]? = _
    rw [Int.toNat_natCast, setData_getElem?, if_pos rfl, hget]
    rfl
  · show Blockchain.isChainValid H
      { bc with chain := setData bc.chain (((j + 1 : Nat) : Int)).toNat d } = _
    rw [Int.toNat_natCast]
    exact isChainValid_setData H bc.chain bc.difficulty j d b hget hvalid hm

/-- C1 counterexample: on a concrete valid two-block chain, tampering at the
in-range index 1 with data equal to the block's existing data leaves a chain
that still validates, so the claim's unconditional "subsequent validate()
returns a failure" is false as stated. -/
theorem tamper_same_data_counterexample :
    (bc1.isChainValid hashId).fst = true ∧
    (0 : Int) < 1 ∧ (1 : Int) < (bc1.chain.length : Int) ∧
    (bc1.tamperWithBlock 1 "A").2 = none ∧
    ((bc1.tamperWithBlock 1 "A").1.isChainValid hashId).fst = true := by
  refine ⟨by decide, by decide, by decide, by decide, by decide⟩

theorem tamper_then_validate_fails_witness :
    (bc1.tamperWithBlock ((1 : Nat) : Int) "B").2 = none ∧
    (bc1.tamperWithBlock ((1 : Nat) : Int) "B").1.chain[1]? =
      some { b1 with data := "B" } ∧
    (bc1.tamperWithBlock ((1 : Nat) : Int) "B").1.isChainValid hashId =
      (false, hashMismatchMsg b1.index) :=
  tamper_then_validate_fails hashId bc1 1 "B" b1 (by decide) (by decide)
    (by decide) (by decide)

/-- C6: a successful `add_block(data)` appends exactly one new mined block
whose index is the old tail's index plus one and whose `previous_hash` is
the old tail's stored digest; the chain grows by exactly one element and
the returned summary carries the new block's index, stored digest, final
nonce, and the mining duration. -/
theorem addBlock_appends (H : String → String) (fuel ts tStart tEnd : Nat)
    (bc : Blockchain) (data : String) (bc' : Blockchain) (s : AddSummary)
    (last : Block) (hlast : bc.chain.getLast? = some last)
    (h : bc.addBlock H fuel ts tStart tEnd data = some (bc', s)) :
    ∃ nb, bc'.chain = bc.chain ++ [nb] ∧
      bc'.chain.length = bc.chain.length + 1 ∧
      bc'.difficulty = bc.difficulty ∧
      nb.index = last.index + 1 ∧
      nb.previous_hash = last.hash ∧
      nb.timestamp = ts ∧
      nb.data = data ∧
      nb.hash = computeHash H nb ∧
      strStartsWith nb.hash (zeros bc.difficulty) = true ∧
      s.index = nb.index ∧
      s.hash = nb.hash ∧
      s.nonce = nb.nonce ∧
      s.time_taken_sec = tEnd - tStart := by
  obtain ⟨last', mined, hl', hp, hbc', hs⟩ :=
    addBlock_some H fuel ts tStart tEnd bc data bc' s h
  have hl2 : last' = last := by
    rw [hlast] at hl'
    exact (Option.some.inj hl').symm
  subst hl2
  obtain ⟨e1, e2, e3, e4, e5, e6, e7, e8⟩ :=
    powLoop_spec H (zeros bc.difficulty) fuel _ mined hp
  subst hbc'
  subst hs
  refine ⟨mined, rfl, by simp, rfl, ?_, ?_, ?_, ?_, e5, e6, rfl, rfl, rfl, rfl⟩
  · rw [e1, Block.make_index]
  · rw [e4, Block.make_previous_hash]
  · rw [e2, Block.make_timestamp]
  · rw [e3, Block.make_data]

theorem addBlock_appends_witness :
    bc2.chain.length = bc1.chain.length + 1 ∧ sum2.index = last1.index + 1 := by
  obtain ⟨nb, hchain, hlen, hdiff, hidx, hprev, hts, hdata, hhash, hstart,
    hsidx, hshash, hsnonce, hstime⟩ :=
    addBlock_appends hashId 1 9 4 6 bc1 "B" bc2 sum2 last1 (by decide) (by decide)
  exact ⟨hlen, by rw [hsidx, hidx]⟩

/-- C7: when `proof_of_work` returns, the final nonce is the least nonce at
or above the starting one whose recomputed digest has the difficulty prefix;
the block's stored digest equals the digest recomputed from its current
fields, meets the prefix, and is returned together with the final nonce and
the elapsed duration. -/
theorem proofOfWork_least_nonce (H : String → String) (difficulty fuel : Nat)
    (b : Block) (tStart tEnd : Nat) (b2 : Block) (hsh : String) (n dur : Nat)
    (hm : proofOfWork H difficulty fuel b tStart tEnd = some (b2, hsh, n, dur)) :
    hsh = b2.hash ∧ n = b2.nonce ∧
    b2.hash = computeHash H b2 ∧
    strStartsWith b2.hash (zeros difficulty) = true ∧
    b.nonce ≤ n ∧
    (∀ m, b.nonce ≤ m → m < n →
      strStartsWith (computeHash H { b with nonce := m }) (zeros difficulty) = false) ∧
    strStartsWith (computeHash H { b with nonce := n }) (zeros difficulty) = true ∧
    b2.index = b.index ∧ b2.timestamp = b.timestamp ∧ b2.data = b.data ∧
    b2.previous_hash = b.previous_hash ∧
    dur = tEnd - tStart := by
  unfold proofOfWork at hm
  cases hp : powLoop H (zeros difficulty) fuel b with
  | none => rw [hp] at hm; simp at hm
  | some bb =>
    rw [hp] at hm
    simp only [Option.map_some'] at hm
    have h4 := Option.some.inj hm
    have hb2 : bb = b2 := congrArg Prod.fst h4
    subst hb2
    have hh' : bb.hash = hsh := congrArg (fun x => x.2.1) h4
    have hn' : bb.nonce = n := congrArg (fun x => x.2.2.1) h4
    have hdur' : tEnd - tStart = dur := congrArg (fun x => x.2.2.2) h4
    subst hh'
    subst hn'
    subst hdur'
    obtain ⟨e1, e2, e3, e4, e5, e6, e7, e8⟩ :=
      powLoop_spec H (zeros difficulty) fuel b bb hp
    refine ⟨rfl, rfl, e5, e6, e7, e8, ?_, e1, e2, e3, e4, rfl⟩
    rw [computeHash_congr H { b with nonce := bb.nonce } bb
      e1.symm e2.symm e3.symm e4.symm rfl, ← e5]
    exact e6

theorem proofOfWork_least_nonce_witness :
    powRes.2.2.1 = powRes.1.nonce ∧ mineB.nonce ≤ powRes.2.2.1 ∧
    powRes.2.2.2 = 9 - 2 := by
  obtain ⟨c1, c2, c3, c4, c5, c6, c7, c8, c9, c10, c11, c12⟩ :=
    proofOfWork_least_nonce hashId 0 1 mineB 2 9 powRes.1 powRes.2.1
      powRes.2.2.1 powRes.2.2.2 (by decide)
  exact ⟨c2, c5, c12⟩

/-- C8: `average_nonce()` returns exactly 0 when the chain has at most one
block (only genesis), and otherwise the arithmetic mean of the nonces of
the non-genesis blocks, whose count is then nonzero — so it never divides
by zero. -/
theorem averageNonce_spec (bc : Blockchain) :
    (bc.chain.length ≤ 1 → bc.averageNonce = 0) ∧
    (1 < bc.chain.length →
      bc.averageNonce =
        (((bc.chain.drop 1).map Block.nonce).sum : Rat) /
          ((bc.chain.drop 1).length : Rat) ∧
      (bc.chain.drop 1).length ≠ 0) := by
  constructor
  · intro h
    unfold Blockchain.averageNonce
    rw [if_pos h]
  · intro h
    unfold Blockchain.averageNonce
    rw [if_neg (by omega)]
    have hd : (bc.chain.drop 1).length = bc.chain.length - 1 :=
      List.length_drop 1 bc.chain
    constructor
    · rw [hd]
    · rw [hd]
      omega

theorem averageNonce_spec_witness :
    bcAvg.averageNonce =
      (((bcAvg.chain.drop 1).map Block.nonce).sum : Rat) /
        ((bcAvg.chain.drop 1).length : Rat) ∧
    bcAvg.averageNonce = 6 := by
  have h := (averageNonce_spec bcAvg).2 (by decide)
  refine ⟨h.1, ?_⟩
  rw [h.1, show ((bcAvg.chain.drop 1).map Block.nonce).sum = 12 from rfl,
    show (bcAvg.chain.drop 1).length = 2 from rfl]
  norm_num

/-- C9: `compute_hash` is a deterministic pure function of exactly the five
content fields `index`, `timestamp`, `data`, `previous_hash`, `nonce`: two
blocks agreeing on those fields (whatever their stored `hash`) get the same
digest; in this pure embedding the call mutates nothing. -/
theorem computeHash_deterministic (H : String → String) (b b' : Block)
    (h1 : b.index = b'.index) (h2 : b.timestamp = b'.timestamp)
    (h3 : b.data = b'.data) (h4 : b.previous_hash = b'.previous_hash)
    (h5 : b.nonce = b'.nonce) :
    computeHash H b = computeHash H b' :=
  computeHash_congr H b b' h1 h2 h3 h4 h5

theorem computeHash_deterministic_witness :
    computeHash hashId mineB = computeHash hashId { mineB with hash := "other" } :=
  computeHash_deterministic hashId mineB { mineB with hash := "other" }
    rfl rfl rfl rfl rfl

/-- C10: `validate()` depends on the genesis block only through its stored
digest: replacing the genesis by any block with the same stored digest —
whatever its data, timestamp, nonce, or whether its digest matches its
recomputed digest or meets the difficulty — yields the identical result. -/
theorem isChainValid_genesis_only_hash (H : String → String) (d : Nat)
    (g g' : Block) (rest : List Block) (hg : g.hash = g'.hash) :
    Blockchain.isChainValid H { chain := g :: rest, difficulty := d } =
      Blockchain.isChainValid H { chain := g' :: rest, difficulty := d } := by
  show validFrom H (zeros d) g rest = validFrom H (zeros d) g' rest
  exact validFrom_congr_prev H (zeros d) rest g g' hg

theorem isChainValid_genesis_only_hash_witness :
    Blockchain.isChainValid hashId { chain := g0 :: bc1.chain.tail, difficulty := 0 } =
      Blockchain.isChainValid hashId { chain := gBad :: bc1.chain.tail, difficulty := 0 } ∧
    computeHash hashId gBad ≠ gBad.hash ∧
    (Blockchain.isChainValid hashId
      { chain := gBad :: bc1.chain.tail, difficulty := 0 }).fst = true :=
  ⟨isChainValid_genesis_only_hash hashId 0 g0 gBad bc1.chain.tail rfl,
   by decide, by decide⟩
